import Mathlib

/-!
Shallow embedding of the kira_cdh_compat_lsh crate.

Machine integers are modelled as Nat with explicit reduction modulo 2^64
exactly where the source uses wrapping arithmetic (wrapping_add,
wrapping_mul on u64); xor and shift of values below 2^64 stay below 2^64,
matching u64 bit operations.  usize lengths and the u32 collision counters
are modelled as Nat (no arithmetic on them can wrap below 2^32 / 2^64 in
the source's intended domain).  Rust HashMap buckets are modelled as
association lists; the source's HashMap iteration order is unobservable in
query results because the final sort key (descending count, ascending id)
is a strict total order on entries with pairwise distinct ids, so the
sorted output is the unique sorted arrangement of the counted entries.
-/

/-! ### src/util.rs -/

/-- splitmix64 from src/util.rs: wrapping add of 0x9E3779B97F4A7C15, then two
xor-shift rounds (30, 27) interleaved with wrapping multiplications by
0xBF58476D1CE4E5B9 and 0x94D049BB133111EB, and a final xor-shift by 31. -/
def splitmix64 (x : Nat) : Nat :=
  let x1 := (x + 0x9E3779B97F4A7C15) % 2 ^ 64
  let z1 := ((x1 ^^^ (x1 >>> 30)) * 0xBF58476D1CE4E5B9) % 2 ^ 64
  let z2 := ((z1 ^^^ (z1 >>> 27)) * 0x94D049BB133111EB) % 2 ^ 64
  z2 ^^^ (z2 >>> 31)

/-- mix_with_seed from src/util.rs: splitmix64 applied to x xor seed. -/
def mix_with_seed (x seed : Nat) : Nat :=
  splitmix64 (x ^^^ seed)

/-- hash_band from src/util.rs: left fold of acc = splitmix64(acc xor v)
over the chunk, starting from seed xor 0xDEADBEEFDEADBEEF. -/
def hash_band (chunk : List Nat) (seed : Nat) : Nat :=
  chunk.foldl (fun acc v => splitmix64 (acc ^^^ v)) (seed ^^^ 0xDEADBEEFDEADBEEF)

/-! ### src/errors.rs -/

/-- LshError from src/errors.rs. -/
inductive LshError where
  | InvalidParams (bands rows sig_len : Nat)
  | ShortSignature (sig_len need : Nat)
deriving DecidableEq, Repr

/-! ### src/kmv.rs

The Rust field heap is a BinaryHeap of Reverse(u64), i.e. a max-heap under
the reversed order, hence min-at-top over the raw u64 values: peek returns
the smallest retained value and pop removes one occurrence of it.  The
heap contents are modelled as a plain multiset-like list; peek is the list
minimum and pop erases one occurrence of that minimum (which occurrence
among equal values is unobservable, values being equal). -/

/-- KmvSketch from src/kmv.rs: target size k and the retained values. -/
structure KmvSketch where
  k : Nat
  heap : List Nat
deriving DecidableEq, Repr

/-- KmvSketch::new. -/
def KmvSketch.new (k : Nat) : KmvSketch :=
  ⟨k, []⟩

/-- KmvSketch::update from src/kmv.rs: push while below capacity; otherwise
peek the heap top (the smallest retained value, because the heap stores
Reverse(u64)) and, when h is strictly smaller, pop that top and push h. -/
def KmvSketch.update (s : KmvSketch) (h : Nat) : KmvSketch :=
  if s.heap.length < s.k then
    { s with heap := h :: s.heap }
  else
    match s.heap.min? with
    | some top => if h < top then { s with heap := h :: s.heap.erase top } else s
    | none => s

/-- Ascending insertion of one value into a sorted list. -/
def insertSortedNat (x : Nat) : List Nat → List Nat
  | [] => [x]
  | y :: ys => if x ≤ y then x :: y :: ys else y :: insertSortedNat x ys

/-- Ascending sort, modelling the sort_unstable call in KmvSketch::finish
(stability is irrelevant on Nat values). -/
def sortAsc : List Nat → List Nat
  | [] => []
  | x :: xs => insertSortedNat x (sortAsc xs)

/-- KmvSketch::finish: drain the heap and sort ascending. -/
def KmvSketch.finish (s : KmvSketch) : List Nat :=
  sortAsc s.heap

/-! ### src/minhash.rs -/

/-- The seed derivation loop of MinHash::new: a running state starting at
seed0, advanced by splitmix64 before each push. -/
def seedsChain (s : Nat) : Nat → List Nat
  | 0 => []
  | n + 1 =>
    let s1 := splitmix64 s
    s1 :: seedsChain s1 n

/-- MinHash from src/minhash.rs. -/
structure MinHash where
  seeds : List Nat
  mins : List Nat
deriving DecidableEq, Repr

/-- MinHash::new: chained seeds and minima initialised to u64::MAX. -/
def MinHash.new (num_hashes seed0 : Nat) : MinHash :=
  ⟨seedsChain seed0 num_hashes, List.replicate num_hashes (2 ^ 64 - 1)⟩

/-- The per-slot loop of MinHash::update: for each i below seeds.len(),
replace mins[i] by mix_with_seed(x, seeds[i]) when strictly smaller. -/
def minsUpdate : List Nat → List Nat → Nat → List Nat
  | [], mins, _ => mins
  | _ :: _, [], _ => []
  | s :: ss, mn :: mns, x =>
    (if mix_with_seed x s < mn then mix_with_seed x s else mn) :: minsUpdate ss mns x

/-- MinHash::update. -/
def MinHash.update (m : MinHash) (x : Nat) : MinHash :=
  { m with mins := minsUpdate m.seeds m.mins x }

/-- MinHash::finish: the minima as-is. -/
def MinHash.finish (m : MinHash) : List Nat :=
  m.mins

/-- A finite sequence of update calls applied in order. -/
def MinHash.applyUpdates (m : MinHash) (xs : List Nat) : MinHash :=
  xs.foldl MinHash.update m

/-! ### src/sketch.rs -/

/-- The equality-counting loop of jaccard_from_signatures: the number of
positions i below n with a[i] == b[i]. -/
def countEq (a b : List Nat) (n : Nat) : Nat :=
  ((List.range n).filter (fun i => a.getD i 0 == b.getD i 0)).length

/-- jaccard_from_signatures from src/sketch.rs.  The source returns f64;
the division is modelled as exact rational division.  Every property
proved below is rounding-independent: the 0 branch returns a literal, the
value 1 arises as n / n which is exact in IEEE 754 binary64 for a positive
integer n cast from usize, and symmetry follows from the numerator and
denominator being computed identically on swapped arguments. -/
def jaccard_from_signatures (a b : List Nat) : Rat :=
  let n := min a.length b.length
  if n = 0 then 0 else (countEq a b n : Rat) / (n : Rat)

/-! ### src/lsh.rs -/

/-- LshParams from src/lsh.rs. -/
structure LshParams where
  bands : Nat
  rows_per_band : Nat
deriving DecidableEq, Repr

/-- LshParamsError from src/lsh.rs. -/
inductive LshParamsError where
  | Zero
deriving DecidableEq, Repr

/-- LshParams::new: both fields must be non-zero. -/
def LshParams.new (bands rows_per_band : Nat) : Except LshParamsError LshParams :=
  if bands = 0 ∨ rows_per_band = 0 then
    .error .Zero
  else
    .ok ⟨bands, rows_per_band⟩

/-- LshParams::signature_len. -/
def LshParams.signature_len (p : LshParams) : Nat :=
  p.bands * p.rows_per_band

/-- One band's bucket map, key to id list.  The source uses a hashbrown
HashMap; it is modelled as an association list with keys in first-insertion
order, which fixes an (unobservable) iteration order. -/
abbrev Bucket := List (Nat × List Nat)

/-- The entry(key).or_default().push(id) idiom: append id to the list at
key, creating the entry when absent. -/
def bucketAppend : Bucket → Nat → Nat → Bucket
  | [], key, id => [(key, [id])]
  | (k, ids) :: rest, key, id =>
    if k = key then (k, ids ++ [id]) :: rest
    else (k, ids) :: bucketAppend rest key id

/-- HashMap get on the modelled bucket map. -/
def bucketLookup : Bucket → Nat → Option (List Nat)
  | [], _ => none
  | (k, ids) :: rest, key => if k = key then some ids else bucketLookup rest key

/-- LshIndex from src/lsh.rs.  The dead fields ids and signatures (never
written, never read) are omitted. -/
structure LshIndex where
  params : LshParams
  bands : List Bucket
  seed : Nat
deriving DecidableEq, Repr

/-- LshIndex::with_params: one empty bucket map per band and the fixed
deterministic seed 0xC0FFEEFADE. -/
def LshIndex.with_params (params : LshParams) : LshIndex :=
  ⟨params, List.replicate params.bands [], 0xC0FFEEFADE⟩

/-- The per-band key of both insert and query: hash_band applied to the
slice signature[b*rows .. b*rows+rows] with seed b xor index seed. -/
def bandKeyAt (signature : List Nat) (rows seed b : Nat) : Nat :=
  hash_band (((signature.drop (b * rows)).take rows)) (b ^^^ seed)

/-- The banded insertion loop, for b in 0..params.bands, appending id to
band b's bucket at the band key.  The fuel argument is the loop bound
params.bands; the list argument is the per-band map vector.  The source
indexes the vector, whose length is always params.bands; the case of a
vector shorter than the fuel is unreachable from the public constructors. -/
def insertLoop (signature : List Nat) (rows seed id : Nat) : Nat → Nat → List Bucket → List Bucket
  | _, 0, maps => maps
  | _, _ + 1, [] => []
  | b, n + 1, mp :: rest =>
    bucketAppend mp (bandKeyAt signature rows seed b) id ::
      insertLoop signature rows seed id (b + 1) n rest

/-- LshIndex::insert.  The source mutates self and returns Result; this is
modelled as the pair of the post state and the optional error.  The length
check precedes every bucket mutation, so the error branch returns the
receiver unchanged, exactly as the source's early return does. -/
def LshIndex.insert (idx : LshIndex) (id : Nat) (signature : List Nat) :
    LshIndex × Option LshError :=
  let need := idx.params.signature_len
  if signature.length < need then
    (idx, some (.ShortSignature signature.length need))
  else
    ({ idx with
        bands := insertLoop signature idx.params.rows_per_band idx.seed id 0
          idx.params.bands idx.bands },
      none)

/-- Vec::shrink_to_fit changes only capacity, never contents; on the
value-level model it is the identity on the stored list. -/
def shrink_to_fit (v : List Nat) : List Nat :=
  v

/-- LshIndex::build: shrink every bucket list in every band map. -/
def LshIndex.build (idx : LshIndex) : LshIndex :=
  { idx with bands := idx.bands.map (fun mp => mp.map (fun kv => (kv.1, shrink_to_fit kv.2))) }

/-- n successive calls of build. -/
def buildN : Nat → LshIndex → LshIndex
  | 0, idx => idx
  | n + 1, idx => buildN n idx.build

/-- The counts.entry(id).or_insert(0) += 1 idiom on the modelled counter
map: increment the entry, creating it at 1 when absent. -/
def countsIncr : List (Nat × Nat) → Nat → List (Nat × Nat)
  | [], id => [(id, 1)]
  | (i, c) :: rest, id =>
    if i = id then (i, c + 1) :: rest
    else (i, c) :: countsIncr rest id

/-- The if-let body of the query band loop: when the lookup found a
bucket, bump the counter of every id stored in it, else leave the
counters alone. -/
def bucketHits (counts : List (Nat × Nat)) : Option (List Nat) → List (Nat × Nat)
  | some ids => ids.foldl countsIncr counts
  | none => counts

/-- The band loop of query_candidates: for each band, look the band key up
and bump the counter of every id in the found bucket. -/
def queryLoop (signature : List Nat) (rows seed : Nat) :
    Nat → Nat → List Bucket → List (Nat × Nat) → List (Nat × Nat)
  | _, 0, _, counts => counts
  | _, _ + 1, [], counts => counts
  | b, n + 1, mp :: rest, counts =>
    queryLoop signature rows seed (b + 1) n rest
      (bucketHits counts (bucketLookup mp (bandKeyAt signature rows seed b)))

/-- Sorted insertion under the comparator of query_candidates: descending
collision count, then ascending id. -/
def insertSortedCand (x : Nat × Nat) : List (Nat × Nat) → List (Nat × Nat)
  | [] => [x]
  | y :: ys =>
    if y.2 < x.2 ∨ (x.2 = y.2 ∧ x.1 ≤ y.1) then x :: y :: ys
    else y :: insertSortedCand x ys

/-- The sort_unstable_by call of query_candidates.  On entries with
pairwise distinct ids this comparator is a strict total order, so the
result is the unique sorted arrangement, independent of the HashMap
iteration order that feeds it. -/
def sortCand : List (Nat × Nat) → List (Nat × Nat)
  | [] => []
  | x :: xs => insertSortedCand x (sortCand xs)

/-- LshIndex::query_candidates.  The source asserts the length
precondition with assert!, aborting the process on violation; the abort is
modelled as none, a successful return as some. -/
def LshIndex.query_candidates (idx : LshIndex) (signature : List Nat)
    (min_collisions : Nat) : Option (List (Nat × Nat)) :=
  let need := idx.params.signature_len
  if signature.length < need then
    none
  else
    let counts := queryLoop signature idx.params.rows_per_band idx.seed 0
      idx.params.bands idx.bands []
    some (sortCand (counts.filter (fun p => min_collisions ≤ p.2)))

/-! ### Spec-side formulas (for the refinement claim about the mixer) -/

/-- The splitmix64 algorithm as §4.1 of the design document words it: add
the golden-ratio constant, then two xor-shift rounds of 30 and 27
interleaved with the two multiplication constants, and a final xor-shift
of 31, all on 64-bit words. -/
def splitmix64Spec (x : Nat) : Nat :=
  let added := (x + 0x9E3779B97F4A7C15) % 2 ^ 64
  let round1 := ((added ^^^ (added >>> 30)) * 0xBF58476D1CE4E5B9) % 2 ^ 64
  let round2 := ((round1 ^^^ (round1 >>> 27)) * 0x94D049BB133111EB) % 2 ^ 64
  round2 ^^^ (round2 >>> 31)

/-- The accumulator recursion of the spec's hash_band description: for each
element v of the chunk in order, acc becomes mix(acc xor v). -/
def hashBandSpecGo : Nat → List Nat → Nat
  | acc, [] => acc
  | acc, v :: vs => hashBandSpecGo (splitmix64 (acc ^^^ v)) vs

/-- hash_band as the spec words it: start from seed xor 0xDEADBEEFDEADBEEF
and run the accumulator recursion over the chunk. -/
def hashBandSpec (chunk : List Nat) (seed : Nat) : Nat :=
  hashBandSpecGo (seed ^^^ 0xDEADBEEFDEADBEEF) chunk

/-! ### Auxiliary executable definitions used to state properties -/

/-- The mixer applied k times to s, chained. -/
def splitmixIter (s : Nat) : Nat → Nat
  | 0 => s
  | k + 1 => splitmixIter (splitmix64 s) k

/-- The minimum value of a list, none when empty. -/
def listMin : List Nat → Option Nat
  | [] => none
  | v :: vs =>
    match listMin vs with
    | none => some v
    | some m => some (min v m)

/-- n successive counter increments of the same id. -/
def incrN (id : Nat) : Nat → List (Nat × Nat) → List (Nat × Nat)
  | 0, counts => counts
  | n + 1, counts => incrN id n (countsIncr counts id)
/-- Index i of a list with default d, stated recursively so that it
reduces definitionally. -/
def nthD : List Nat → Nat → Nat → Nat
  | [], _, d => d
  | a :: _, 0, _ => a
  | _ :: l, n + 1, d => nthD l n d


/-! ### Helper lemmas -/

theorem bucket_map_eta (mp : Bucket) : mp.map (fun kv => (kv.1, shrink_to_fit kv.2)) = mp := by
  simp [shrink_to_fit]

theorem build_eq_self (idx : LshIndex) : idx.build = idx := by
  have h : idx.bands.map (fun mp => mp.map (fun kv => (kv.1, shrink_to_fit kv.2))) = idx.bands := by
    simp [bucket_map_eta]
  simp [LshIndex.build, h]

theorem buildN_eq : ∀ (n : Nat) (idx : LshIndex), buildN n idx = idx := by
  intro n
  induction n with
  | zero => intro idx; rfl
  | succ k ih => intro idx; rw [buildN, build_eq_self, ih]

theorem hash_band_foldl_go (chunk : List Nat) :
    ∀ acc, chunk.foldl (fun a v => splitmix64 (a ^^^ v)) acc = hashBandSpecGo acc chunk := by
  induction chunk with
  | nil => intro acc; rfl
  | cons v vs ih => intro acc; rw [List.foldl_cons, hashBandSpecGo, ih]

/-! ### Claim theorems: error handling and the mixer -/

/-- C1: in the source, query_candidates enforces its length precondition
with an assert! (an unrecoverable abort, modelled as none), while insert
returns the recoverable ShortSignature error; evaluated at the concrete
index with bands = 1, rows_per_band = 2 and the length-1 signature [5],
the two paths demonstrably diverge, refuting the claim that
query_candidates reports short signatures as recoverable errors. -/
theorem query_short_signature_aborts_insert_errors :
    (LshIndex.with_params ⟨1, 2⟩).query_candidates [5] 0 = none
    ∧ ((LshIndex.with_params ⟨1, 2⟩).insert 7 [5]).2
        = some (LshError.ShortSignature 1 2) := by
  exact ⟨rfl, rfl⟩

/-- C2: evaluation of the KMV sketch at concrete inputs.  With k = 2 and
updates 5, 3, 4, 1 the source retains [1, 5] although the two smallest
observed values are 1 and 3 (the BinaryHeap of Reverse values is
min-at-top, so the guarded eviction replaces the smallest retained value
instead of the largest); and with k = 3 and updates 7, 7 the signature has
length 2 although only one distinct value was observed.  Both evaluations
refute the claimed retention invariant. -/
theorem kmv_update_evicts_minimum_eval :
    (((((KmvSketch.new 2).update 5).update 3).update 4).update 1).finish = [1, 5]
    ∧ ((((KmvSketch.new 3).update 7).update 7).finish = [7, 7]) := by
  decide

/-- C3: insert with a signature shorter than bands * rows_per_band returns
the ShortSignature error carrying the actual and required lengths and
leaves the index state unchanged. -/
theorem insert_short_signature_error_preserves_state :
    ∀ (idx : LshIndex) (id : Nat) (sig : List Nat),
      sig.length < idx.params.signature_len →
      idx.insert id sig
        = (idx, some (LshError.ShortSignature sig.length idx.params.signature_len)) := by
  intro idx id sig h
  simp [LshIndex.insert, h]

theorem insert_short_signature_error_preserves_state_witness :
    ([] : List Nat).length < (LshIndex.with_params ⟨1, 2⟩).params.signature_len
    ∧ (LshIndex.with_params ⟨1, 2⟩).insert 9 []
        = (LshIndex.with_params ⟨1, 2⟩, some (LshError.ShortSignature 0 2)) :=
  ⟨by decide,
    insert_short_signature_error_preserves_state (LshIndex.with_params ⟨1, 2⟩) 9 [] (by decide)⟩

/-- C6: the mixer functions agree with the spec formulas: splitmix64 is
exactly the described add and xor-shift-multiply rounds, mix_with_seed is
the mixer applied to x xor seed, and hash_band is the described left fold
over the chunk. -/
theorem mixer_functions_match_spec_formulas :
    ∀ (x seed : Nat) (chunk : List Nat),
      splitmix64 x = splitmix64Spec x
      ∧ mix_with_seed x seed = splitmix64 (x ^^^ seed)
      ∧ hash_band chunk seed = hashBandSpec chunk seed := by
  intro x seed chunk
  refine ⟨rfl, rfl, ?_⟩
  unfold hash_band hashBandSpec
  exact hash_band_foldl_go chunk _

/-- C8: any number of build calls leaves every query_candidates result
unchanged; build only shrinks bucket capacity, which has no value-level
effect. -/
theorem build_idempotent_for_queries :
    ∀ (n : Nat) (idx : LshIndex) (sig : List Nat) (m : Nat),
      (buildN n idx).query_candidates sig m = idx.query_candidates sig m := by
  intro n idx sig m
  rw [buildN_eq]

/-! ### Jaccard estimator lemmas -/

theorem countEq_self (a : List Nat) (n : Nat) : countEq a a n = n := by
  unfold countEq
  have h : ∀ i ∈ List.range n, (a.getD i 0 == a.getD i 0) = true := by
    intro i _
    exact beq_self_eq_true _
  rw [List.filter_eq_self.mpr h, List.length_range]

theorem countEq_comm (a b : List Nat) (n : Nat) : countEq a b n = countEq b a n := by
  unfold countEq
  have h : ∀ i ∈ List.range n, (a.getD i 0 == b.getD i 0) = (b.getD i 0 == a.getD i 0) := by
    intro i _
    rw [Bool.eq_iff_iff]
    simp only [beq_iff_eq]
    exact eq_comm
  rw [List.filter_congr h]

/-- C7: jaccard_from_signatures returns 0 when the shorter signature is
empty, returns 1 on identical nonempty signatures, and is symmetric. -/
theorem jaccard_zero_one_symm :
    (∀ a b : List Nat, min a.length b.length = 0 → jaccard_from_signatures a b = 0)
    ∧ (∀ a : List Nat, a ≠ [] → jaccard_from_signatures a a = 1)
    ∧ (∀ a b : List Nat, jaccard_from_signatures a b = jaccard_from_signatures b a) := by
  refine ⟨?_, ?_, ?_⟩
  · intro a b h
    simp [jaccard_from_signatures, h]
  · intro a h
    have hn : a.length ≠ 0 := by simpa [List.length_eq_zero] using h
    unfold jaccard_from_signatures
    rw [Nat.min_self, if_neg hn, countEq_self]
    exact div_self (Nat.cast_ne_zero.mpr hn)
  · intro a b
    simp only [jaccard_from_signatures]
    rw [Nat.min_comm, countEq_comm a b]

theorem jaccard_zero_one_symm_witness :
    min ([] : List Nat).length [1].length = 0
    ∧ jaccard_from_signatures [] [1] = 0
    ∧ [2, 3] ≠ ([] : List Nat)
    ∧ jaccard_from_signatures [2, 3] [2, 3] = 1 :=
  ⟨by decide, jaccard_zero_one_symm.1 [] [1] (by decide), by decide,
    jaccard_zero_one_symm.2.1 [2, 3] (by decide)⟩

/-! ### Round-trip lemmas -/

theorem countsIncr_single (id m : Nat) : countsIncr [(id, m)] id = [(id, m + 1)] := by
  simp [countsIncr]

theorem incrN_single (id : Nat) : ∀ (n m : Nat), incrN id n [(id, m)] = [(id, m + n)] := by
  intro n
  induction n with
  | zero => intro m; rfl
  | succ k ih =>
    intro m
    have h1 : incrN id (k + 1) [(id, m)] = incrN id k (countsIncr [(id, m)] id) := rfl
    rw [h1, countsIncr_single, ih]
    have h2 : m + 1 + k = m + (k + 1) := by omega
    rw [h2]

theorem insert_query_loop (sig : List Nat) (rows seed id : Nat) :
    ∀ (n b : Nat) (counts : List (Nat × Nat)),
      queryLoop sig rows seed b n (insertLoop sig rows seed id b n (List.replicate n [])) counts
        = incrN id n counts := by
  intro n
  induction n with
  | zero => intro b counts; rfl
  | succ k ih =>
    intro b counts
    rw [List.replicate_succ]
    show queryLoop sig rows seed (b + 1) k
        (insertLoop sig rows seed id (b + 1) k (List.replicate k []))
        (bucketHits counts
          (bucketLookup (bucketAppend [] (bandKeyAt sig rows seed b) id)
            (bandKeyAt sig rows seed b)))
      = incrN id (k + 1) counts
    rw [show bucketAppend [] (bandKeyAt sig rows seed b) id
        = [(bandKeyAt sig rows seed b, [id])] from rfl]
    rw [show bucketLookup [(bandKeyAt sig rows seed b, [id])] (bandKeyAt sig rows seed b)
        = some [id] from by simp [bucketLookup]]
    rw [show bucketHits counts (some [id]) = countsIncr counts id from rfl]
    exact ih (b + 1) (countsIncr counts id)

theorem sortCand_single (x : Nat × Nat) : sortCand [x] = [x] := rfl

/-- C4: inserting id X with a long-enough signature S into a fresh index
built from valid params and then querying with S and min_collisions equal
to bands returns exactly X with collision count bands: every band maps the
same slice to the same key, each band bucket holds exactly [X], so the
counter of X reaches exactly bands and passes the threshold. -/
theorem roundtrip_insert_query_collision_count :
    ∀ (p : LshParams) (X : Nat) (S : List Nat),
      0 < p.bands → 0 < p.rows_per_band → p.signature_len ≤ S.length →
      (((LshIndex.with_params p).insert X S).1).query_candidates S p.bands
        = some [(X, p.bands)] := by
  intro p X S hb _hr hlen
  have hnot : ¬ S.length < p.signature_len := not_lt.mpr hlen
  have hins : ((LshIndex.with_params p).insert X S).1
      = ⟨p, insertLoop S p.rows_per_band 0xC0FFEEFADE X 0 p.bands
            (List.replicate p.bands []), 0xC0FFEEFADE⟩ := by
    simp [LshIndex.insert, LshIndex.with_params, hnot]
  rw [hins]
  simp only [LshIndex.query_candidates]
  rw [if_neg hnot]
  rw [insert_query_loop S p.rows_per_band 0xC0FFEEFADE X p.bands 0 []]
  obtain ⟨k, hk⟩ : ∃ k, p.bands = k + 1 := ⟨p.bands - 1, by omega⟩
  rw [hk]
  rw [show incrN X (k + 1) [] = incrN X k (countsIncr [] X) from rfl]
  rw [show countsIncr [] X = [(X, 1)] from rfl]
  rw [incrN_single]
  rw [show (1 + k) = k + 1 from by omega]
  rw [show List.filter (fun q => (k + 1) ≤ q.2) [(X, k + 1)] = [(X, k + 1)] from by
    simp]
  rw [sortCand_single]

theorem roundtrip_insert_query_collision_count_witness :
    0 < (2 : Nat) ∧ 0 < (1 : Nat)
    ∧ (LshParams.mk 2 1).signature_len ≤ ([0, 0] : List Nat).length
    ∧ (((LshIndex.with_params ⟨2, 1⟩).insert 5 [0, 0]).1).query_candidates [0, 0] 2
        = some [(5, 2)] :=
  ⟨by decide, by decide, by decide,
    roundtrip_insert_query_collision_count ⟨2, 1⟩ 5 [0, 0] (by decide) (by decide) (by decide)⟩

/-! ### Query count lemmas -/

theorem mem_insertSortedCand (x : Nat × Nat) :
    ∀ (l : List (Nat × Nat)) (p : Nat × Nat), p ∈ insertSortedCand x l → p = x ∨ p ∈ l := by
  intro l
  induction l with
  | nil =>
    intro p hp
    rw [insertSortedCand] at hp
    exact Or.inl (List.mem_singleton.mp hp)
  | cons y ys ih =>
    intro p hp
    by_cases hc : y.2 < x.2 ∨ (x.2 = y.2 ∧ x.1 ≤ y.1)
    · rw [insertSortedCand, if_pos hc] at hp
      rcases List.mem_cons.mp hp with h | h
      · exact Or.inl h
      · exact Or.inr h
    · rw [insertSortedCand, if_neg hc] at hp
      rcases List.mem_cons.mp hp with h | h
      · exact Or.inr (by rw [h]; exact List.mem_cons_self y ys)
      · rcases ih p h with h1 | h1
        · exact Or.inl h1
        · exact Or.inr (List.mem_cons_of_mem _ h1)

theorem mem_sortCand : ∀ (l : List (Nat × Nat)) (p : Nat × Nat), p ∈ sortCand l → p ∈ l := by
  intro l
  induction l with
  | nil =>
    intro p hp
    simp [sortCand] at hp
  | cons x xs ih =>
    intro p hp
    rw [sortCand] at hp
    rcases mem_insertSortedCand x _ p hp with h | h
    · rw [h]; exact List.mem_cons_self x xs
    · exact List.mem_cons_of_mem _ (ih p h)

theorem countsIncr_pos :
    ∀ (counts : List (Nat × Nat)) (id : Nat),
      (∀ q ∈ counts, 1 ≤ q.2) → ∀ q ∈ countsIncr counts id, 1 ≤ q.2 := by
  intro counts
  induction counts with
  | nil =>
    intro id _ q hq
    rw [countsIncr] at hq
    rw [List.mem_singleton.mp hq]
  | cons c rest ih =>
    intro id hall q hq
    obtain ⟨i, cv⟩ := c
    rw [countsIncr] at hq
    by_cases hid : i = id
    · rw [if_pos hid] at hq
      rcases List.mem_cons.mp hq with h | h
      · rw [h]; omega
      · exact hall q (List.mem_cons_of_mem _ h)
    · rw [if_neg hid] at hq
      rcases List.mem_cons.mp hq with h | h
      · rw [h]; exact hall (i, cv) (List.mem_cons_self _ _)
      · exact ih id (fun r hr => hall r (List.mem_cons_of_mem _ hr)) q h

theorem foldl_countsIncr_pos :
    ∀ (ids : List Nat) (counts : List (Nat × Nat)),
      (∀ q ∈ counts, 1 ≤ q.2) → ∀ q ∈ ids.foldl countsIncr counts, 1 ≤ q.2 := by
  intro ids
  induction ids with
  | nil => intro counts h; simpa using h
  | cons i is ih =>
    intro counts h
    rw [List.foldl_cons]
    exact ih _ (countsIncr_pos counts i h)

theorem bucketHits_pos (counts : List (Nat × Nat)) (o : Option (List Nat)) :
    (∀ q ∈ counts, 1 ≤ q.2) → ∀ q ∈ bucketHits counts o, 1 ≤ q.2 := by
  intro h
  cases o with
  | none => simpa [bucketHits] using h
  | some ids => exact foldl_countsIncr_pos ids counts h

theorem queryLoop_pos (sig : List Nat) (rows seed : Nat) :
    ∀ (n b : Nat) (maps : List Bucket) (counts : List (Nat × Nat)),
      (∀ q ∈ counts, 1 ≤ q.2) → ∀ q ∈ queryLoop sig rows seed b n maps counts, 1 ≤ q.2 := by
  intro n
  induction n with
  | zero => intro b maps counts h; simpa [queryLoop] using h
  | succ k ih =>
    intro b maps counts h
    cases maps with
    | nil => simpa [queryLoop] using h
    | cons mp rest =>
      exact ih (b + 1) rest _
        (bucketHits_pos counts (bucketLookup mp (bandKeyAt sig rows seed b)) h)

theorem queryLoop_empty_buckets (sig : List Nat) (rows seed : Nat) :
    ∀ (n b : Nat) (counts : List (Nat × Nat)),
      queryLoop sig rows seed b n (List.replicate n []) counts = counts := by
  intro n
  induction n with
  | zero => intro b counts; rfl
  | succ k ih =>
    intro b counts
    rw [List.replicate_succ]
    exact ih (b + 1) counts

/-- C9: a successful query never reports an id with collision count zero
(every reported pair was produced by at least one counter increment from a
matching bucket), and a query against a fresh index with nothing inserted
returns the empty list for every long-enough signature, even with
min_collisions equal to zero. -/
theorem query_counts_positive_and_empty_index :
    (∀ (idx : LshIndex) (sig : List Nat) (m : Nat) (out : List (Nat × Nat)),
        idx.query_candidates sig m = some out → ∀ q ∈ out, 1 ≤ q.2)
    ∧ (∀ (p : LshParams) (sig : List Nat) (m : Nat),
        p.signature_len ≤ sig.length →
        (LshIndex.with_params p).query_candidates sig m = some []) := by
  constructor
  · intro idx sig m out hq q hqo
    by_cases hlen : sig.length < idx.params.signature_len
    · simp only [LshIndex.query_candidates] at hq
      rw [if_pos hlen] at hq
      exact Option.noConfusion hq
    · simp only [LshIndex.query_candidates] at hq
      rw [if_neg hlen] at hq
      have hout := Option.some.inj hq
      rw [← hout] at hqo
      have h1 := mem_sortCand _ q hqo
      have h2 := (List.mem_filter.mp h1).1
      exact queryLoop_pos sig idx.params.rows_per_band idx.seed idx.params.bands 0
        idx.bands [] (by intro r hr; exact absurd hr (List.not_mem_nil r)) q h2
  · intro p sig m hlen
    have hnot : ¬ sig.length < p.signature_len := not_lt.mpr hlen
    simp only [LshIndex.query_candidates, LshIndex.with_params]
    rw [if_neg hnot, queryLoop_empty_buckets]
    rfl

theorem query_counts_positive_and_empty_index_witness :
    ((((LshIndex.with_params ⟨2, 1⟩).insert 5 [0, 0]).1).query_candidates [0, 0] 0
        = some [(5, 2)]
      ∧ (1 : Nat) ≤ 2)
    ∧ ((LshParams.mk 3 1).signature_len ≤ ([0, 0, 0] : List Nat).length
      ∧ (LshIndex.with_params ⟨3, 1⟩).query_candidates [0, 0, 0] 0 = some []) :=
  ⟨⟨by decide,
      query_counts_positive_and_empty_index.1 (((LshIndex.with_params ⟨2, 1⟩).insert 5 [0, 0]).1)
        [0, 0] 0 [(5, 2)] (by decide) (5, 2) (by decide)⟩,
    by decide,
    query_counts_positive_and_empty_index.2 ⟨3, 1⟩ [0, 0, 0] 0 (by decide)⟩

/-! ### Prefix lemmas -/

theorem take_take_of_le : ∀ (s : List Nat) (r L : Nat), r ≤ L → (s.take L).take r = s.take r := by
  intro s
  induction s with
  | nil => intro r L _; simp
  | cons x xs ih =>
    intro r L hrl
    cases r with
    | zero => simp
    | succ r =>
      cases L with
      | zero => omega
      | succ L =>
        rw [List.take_succ_cons, List.take_succ_cons, List.take_succ_cons,
          ih r L (by omega)]

theorem drop_take_slice : ∀ (s : List Nat) (a r L : Nat), a + r ≤ L →
    ((s.take L).drop a).take r = (s.drop a).take r := by
  intro s
  induction s with
  | nil => intro a r L _; simp
  | cons x xs ih =>
    intro a r L h
    cases a with
    | zero => simpa using take_take_of_le (x :: xs) r L (by omega)
    | succ a =>
      cases L with
      | zero => omega
      | succ L =>
        rw [List.take_succ_cons, List.drop_succ_cons, List.drop_succ_cons]
        exact ih a r L (by omega)

theorem bandKeyAt_take (S : List Nat) (rows seed B b : Nat) (hb : b + 1 ≤ B) :
    bandKeyAt (S.take (B * rows)) rows seed b = bandKeyAt S rows seed b := by
  unfold bandKeyAt
  have h1 : (b + 1) * rows ≤ B * rows := Nat.mul_le_mul_right rows hb
  rw [Nat.succ_mul] at h1
  rw [drop_take_slice S (b * rows) rows (B * rows) h1]

theorem insertLoop_take (S : List Nat) (rows seed id B : Nat) :
    ∀ (n b : Nat) (maps : List Bucket), b + n ≤ B →
      insertLoop (S.take (B * rows)) rows seed id b n maps
        = insertLoop S rows seed id b n maps := by
  intro n
  induction n with
  | zero => intro b maps _; rfl
  | succ k ih =>
    intro b maps h
    cases maps with
    | nil => rfl
    | cons mp rest =>
      show bucketAppend mp (bandKeyAt (S.take (B * rows)) rows seed b) id
          :: insertLoop (S.take (B * rows)) rows seed id (b + 1) k rest
        = bucketAppend mp (bandKeyAt S rows seed b) id
          :: insertLoop S rows seed id (b + 1) k rest
      rw [bandKeyAt_take S rows seed B b (by omega), ih (b + 1) rest (by omega)]

theorem queryLoop_take (S : List Nat) (rows seed B : Nat) :
    ∀ (n b : Nat) (maps : List Bucket) (counts : List (Nat × Nat)), b + n ≤ B →
      queryLoop (S.take (B * rows)) rows seed b n maps counts
        = queryLoop S rows seed b n maps counts := by
  intro n
  induction n with
  | zero => intro b maps counts _; rfl
  | succ k ih =>
    intro b maps counts h
    cases maps with
    | nil => rfl
    | cons mp rest =>
      show queryLoop (S.take (B * rows)) rows seed (b + 1) k rest
          (bucketHits counts (bucketLookup mp (bandKeyAt (S.take (B * rows)) rows seed b)))
        = queryLoop S rows seed (b + 1) k rest
            (bucketHits counts (bucketLookup mp (bandKeyAt S rows seed b)))
      rw [bandKeyAt_take S rows seed B b (by omega), ih (b + 1) rest _ (by omega)]

/-- C10: insert and query_candidates read only the first
bands * rows_per_band signature elements: on any long-enough signature,
running either operation on the truncated signature gives the same result
state and the same query output as running it on the full signature. -/
theorem ops_depend_only_on_leading_slice :
    ∀ (idx : LshIndex) (id m : Nat) (S : List Nat),
      idx.params.signature_len ≤ S.length →
      idx.insert id (S.take idx.params.signature_len) = idx.insert id S
      ∧ idx.query_candidates (S.take idx.params.signature_len) m
          = idx.query_candidates S m := by
  intro idx id m S hlen
  have hlen2 : (S.take idx.params.signature_len).length = idx.params.signature_len := by
    rw [List.length_take]
    omega
  have hnotS : ¬ S.length < idx.params.signature_len := not_lt.mpr hlen
  have hnotT : ¬ (S.take idx.params.signature_len).length < idx.params.signature_len := by
    rw [hlen2]
    omega
  constructor
  · simp only [LshIndex.insert]
    rw [if_neg hnotT, if_neg hnotS]
    simp only [LshParams.signature_len]
    rw [insertLoop_take S idx.params.rows_per_band idx.seed id idx.params.bands
      idx.params.bands 0 idx.bands (by omega)]
  · simp only [LshIndex.query_candidates]
    rw [if_neg hnotT, if_neg hnotS]
    simp only [LshParams.signature_len]
    rw [queryLoop_take S idx.params.rows_per_band idx.seed idx.params.bands
      idx.params.bands 0 idx.bands [] (by omega)]

theorem ops_depend_only_on_leading_slice_witness :
    (LshIndex.with_params ⟨1, 1⟩).params.signature_len ≤ ([3, 4] : List Nat).length
    ∧ (LshIndex.with_params ⟨1, 1⟩).insert 2 (([3, 4] : List Nat).take
        (LshIndex.with_params ⟨1, 1⟩).params.signature_len)
      = (LshIndex.with_params ⟨1, 1⟩).insert 2 [3, 4]
    ∧ (LshIndex.with_params ⟨1, 1⟩).query_candidates (([3, 4] : List Nat).take
        (LshIndex.with_params ⟨1, 1⟩).params.signature_len) 0
      = (LshIndex.with_params ⟨1, 1⟩).query_candidates [3, 4] 0 :=
  ⟨by decide,
    (ops_depend_only_on_leading_slice (LshIndex.with_params ⟨1, 1⟩) 2 0 [3, 4] (by decide)).1,
    (ops_depend_only_on_leading_slice (LshIndex.with_params ⟨1, 1⟩) 2 0 [3, 4] (by decide)).2⟩

/-! ### MinHash lemmas -/

theorem xorshift_lt (z s : Nat) (h : z < 2 ^ 64) : z ^^^ (z >>> s) < 2 ^ 64 := by
  refine Nat.xor_lt_two_pow h (Nat.lt_of_le_of_lt ?_ h)
  rw [Nat.shiftRight_eq_div_pow]
  exact Nat.div_le_self _ _

theorem splitmix64_lt (x : Nat) : splitmix64 x < 2 ^ 64 := by
  simp only [splitmix64]
  exact xorshift_lt _ 31 (Nat.mod_lt _ (by norm_num))

theorem mix_with_seed_lt (x s : Nat) : mix_with_seed x s < 2 ^ 64 :=
  splitmix64_lt _

theorem nthD_replicate : ∀ (n i a d : Nat), i < n → nthD (List.replicate n a) i d = a := by
  intro n
  induction n with
  | zero => intro i a d h; omega
  | succ k ih =>
    intro i a d h
    rw [List.replicate_succ]
    cases i with
    | zero => rfl
    | succ j => exact ih j a d (by omega)

theorem seedsChain_length : ∀ (n s : Nat), (seedsChain s n).length = n := by
  intro n
  induction n with
  | zero => intro s; rfl
  | succ k ih =>
    intro s
    rw [seedsChain]
    simp [ih]
/-! Single unfolding equations, each certified once and used as rewrite
rules so that later proofs never rely on deep definitional reduction. -/

theorem seedsChain_succ (s n : Nat) :
    seedsChain s (n + 1) = splitmix64 s :: seedsChain (splitmix64 s) n := rfl

theorem splitmixIter_zero (s : Nat) : splitmixIter s 0 = s := rfl

theorem splitmixIter_succ (s k : Nat) :
    splitmixIter s (k + 1) = splitmixIter (splitmix64 s) k := rfl

theorem nthD_cons_zero (a : Nat) (l : List Nat) (d : Nat) : nthD (a :: l) 0 d = a := rfl

theorem nthD_cons_succ (a : Nat) (l : List Nat) (n d : Nat) :
    nthD (a :: l) (n + 1) d = nthD l n d := rfl

theorem minsUpdate_nil_left (ms : List Nat) (x : Nat) : minsUpdate [] ms x = ms := rfl

theorem minsUpdate_nil_right (s : Nat) (ss : List Nat) (x : Nat) :
    minsUpdate (s :: ss) [] x = [] := rfl

theorem minsUpdate_cons (s mn x : Nat) (ss mns : List Nat) :
    minsUpdate (s :: ss) (mn :: mns) x
      = (if mix_with_seed x s < mn then mix_with_seed x s else mn) :: minsUpdate ss mns x := rfl

theorem applyUpdates_nil (m : MinHash) : m.applyUpdates [] = m := rfl

theorem applyUpdates_cons (m : MinHash) (x : Nat) (xs : List Nat) :
    m.applyUpdates (x :: xs) = (m.update x).applyUpdates xs := rfl

theorem update_seeds (m : MinHash) (x : Nat) : (m.update x).seeds = m.seeds := rfl

theorem update_mins (m : MinHash) (x : Nat) :
    (m.update x).mins = minsUpdate m.seeds m.mins x := rfl

theorem new_seeds (n s0 : Nat) : (MinHash.new n s0).seeds = seedsChain s0 n := rfl

theorem new_mins (n s0 : Nat) : (MinHash.new n s0).mins = List.replicate n (2 ^ 64 - 1) := rfl

theorem finish_mins (m : MinHash) : m.finish = m.mins := rfl

theorem seedsChain_nthD : ∀ (i n s : Nat), i < n →
    nthD (seedsChain s n) i 0 = splitmixIter s (i + 1) := by
  intro i
  induction i with
  | zero =>
    intro n s h
    cases n with
    | zero => omega
    | succ k =>
      rw [seedsChain_succ, nthD_cons_zero, splitmixIter_succ, splitmixIter_zero]
  | succ j ih =>
    intro n s h
    cases n with
    | zero => omega
    | succ k =>
      rw [seedsChain_succ, nthD_cons_succ, ih k (splitmix64 s) (by omega),
        splitmixIter_succ s (j + 1)]

theorem minsUpdate_length : ∀ (ss ms : List Nat) (x : Nat),
    (minsUpdate ss ms x).length = ms.length := by
  intro ss
  induction ss with
  | nil =>
    intro ms x
    rw [minsUpdate_nil_left]
  | cons s ss ih =>
    intro ms x
    cases ms with
    | nil => rw [minsUpdate_nil_right]
    | cons mn mns => rw [minsUpdate_cons, List.length_cons, List.length_cons, ih]

theorem minsUpdate_nthD : ∀ (ss ms : List Nat) (x i : Nat), i < ss.length → i < ms.length →
    nthD (minsUpdate ss ms x) i 0 = min (mix_with_seed x (nthD ss i 0)) (nthD ms i 0) := by
  intro ss
  induction ss with
  | nil => intro ms x i h1 _; simp at h1
  | cons s ss ih =>
    intro ms x i h1 h2
    cases ms with
    | nil => simp at h2
    | cons mn mns =>
      cases i with
      | zero =>
        rw [minsUpdate_cons, nthD_cons_zero, nthD_cons_zero, nthD_cons_zero, Nat.min_def]
        by_cases hlt : mix_with_seed x s < mn
        · rw [if_pos hlt, if_pos (Nat.le_of_lt hlt)]
        · rw [if_neg hlt]
          by_cases hle : mix_with_seed x s ≤ mn
          · have heq : mix_with_seed x s = mn := by omega
            rw [if_pos hle, heq]
          · rw [if_neg hle]
      | succ j =>
        rw [minsUpdate_cons, nthD_cons_succ, nthD_cons_succ, nthD_cons_succ,
          ih mns x j (by simp only [List.length_cons] at h1; omega)
            (by simp only [List.length_cons] at h2; omega)]

theorem applyUpdates_seeds : ∀ (xs : List Nat) (m : MinHash),
    (m.applyUpdates xs).seeds = m.seeds := by
  intro xs
  induction xs with
  | nil => intro m; rw [applyUpdates_nil]
  | cons x xs ih =>
    intro m
    rw [applyUpdates_cons, ih, update_seeds]

theorem applyUpdates_mins_length : ∀ (xs : List Nat) (m : MinHash),
    ((m.applyUpdates xs).mins).length = m.mins.length := by
  intro xs
  induction xs with
  | nil => intro m; rw [applyUpdates_nil]
  | cons x xs ih =>
    intro m
    rw [applyUpdates_cons, ih, update_mins, minsUpdate_length]

theorem applyUpdates_mins_nthD : ∀ (xs : List Nat) (m : MinHash) (i : Nat),
    i < m.seeds.length → i < m.mins.length →
    nthD ((m.applyUpdates xs).mins) i 0
      = xs.foldl (fun c x => min (mix_with_seed x (nthD m.seeds i 0)) c) (nthD m.mins i 0) := by
  intro xs
  induction xs with
  | nil => intro m i _ _; rw [applyUpdates_nil, List.foldl_nil]
  | cons x xs ih =>
    intro m i h1 h2
    have h1u : i < (m.update x).seeds.length := by rw [update_seeds]; exact h1
    have h2u : i < (m.update x).mins.length := by rw [update_mins, minsUpdate_length]; exact h2
    rw [applyUpdates_cons, ih (m.update x) i h1u h2u, update_seeds, update_mins,
      minsUpdate_nthD m.seeds m.mins x i h1 h2, List.foldl_cons]

theorem listMin_nil : listMin [] = none := rfl

theorem listMin_cons (v : Nat) (vs : List Nat) :
    listMin (v :: vs)
      = match listMin vs with
        | none => some v
        | some m => some (min v m) := rfl

theorem foldl_min_listMin : ∀ (l : List Nat) (t : Nat),
    l.foldl (fun c v => min v c) t
      = match listMin l with
        | none => t
        | some m => min m t := by
  intro l
  induction l with
  | nil => intro t; rw [List.foldl_nil, listMin_nil]
  | cons v vs ih =>
    intro t
    rw [List.foldl_cons, ih (min v t), listMin_cons]
    cases hm : listMin vs with
    | none => simp
    | some m =>
      simp only []
      rw [Nat.min_comm v m, Nat.min_assoc]

theorem listMin_mem : ∀ (l : List Nat) (m : Nat), listMin l = some m → m ∈ l := by
  intro l
  induction l with
  | nil => intro m h; exact Option.noConfusion h
  | cons v vs ih =>
    intro m h
    rw [listMin_cons] at h
    cases hm : listMin vs with
    | none =>
      rw [hm] at h
      rw [← Option.some.inj h]
      exact List.mem_cons_self v vs
    | some m2 =>
      rw [hm] at h
      have hmm : min v m2 = m := Option.some.inj h
      rcases le_total v m2 with hle | hle
      · rw [← hmm, min_eq_left hle]
        exact List.mem_cons_self v vs
      · rw [← hmm, min_eq_right hle]
        exact List.mem_cons_of_mem _ (ih m2 hm)

theorem map_mix_le (xs : List Nat) (s : Nat) :
    ∀ v ∈ xs.map (fun x => mix_with_seed x s), v ≤ 2 ^ 64 - 1 := by
  intro v hv
  rcases List.mem_map.mp hv with ⟨x, _, hx⟩
  rw [← hx]
  have h := mix_with_seed_lt x s
  omega

/-- C5: for every num_hashes and seed0 and every finite update sequence,
MinHash finish returns exactly num_hashes elements, and element i is the
minimum of mix_with_seed(x, seed i) over the updated values x, or the
maximum representable 64-bit value when there were no updates, where
seed i is the mixer applied i + 1 times to seed0 in a chain. -/
theorem minhash_finish_length_and_minima :
    ∀ (n seed0 : Nat) (xs : List Nat),
      ((MinHash.new n seed0).applyUpdates xs).finish.length = n
      ∧ ∀ i, i < n →
          nthD (((MinHash.new n seed0).applyUpdates xs).finish) i 0
            = (listMin (xs.map (fun x => mix_with_seed x (splitmixIter seed0 (i + 1))))).getD
                (2 ^ 64 - 1) := by
  intro n seed0 xs
  constructor
  · rw [finish_mins, applyUpdates_mins_length, new_mins, List.length_replicate]
  · intro i hi
    have h1 : i < (MinHash.new n seed0).seeds.length := by
      rw [new_seeds, seedsChain_length]
      exact hi
    have h2 : i < (MinHash.new n seed0).mins.length := by
      rw [new_mins, List.length_replicate]
      exact hi
    rw [finish_mins, applyUpdates_mins_nthD xs (MinHash.new n seed0) i h1 h2,
      new_seeds, new_mins, seedsChain_nthD i n seed0 hi, nthD_replicate n i _ 0 hi]
    rw [(List.foldl_map (fun x => mix_with_seed x (splitmixIter seed0 (i + 1)))
      (fun c v => min v c) xs (2 ^ 64 - 1)).symm]
    rw [foldl_min_listMin]
    cases hm : listMin (xs.map (fun x => mix_with_seed x (splitmixIter seed0 (i + 1)))) with
    | none => rfl
    | some mv =>
      have hmem := listMin_mem _ mv hm
      have hle := map_mix_le xs (splitmixIter seed0 (i + 1)) mv hmem
      show min mv (2 ^ 64 - 1) = mv
      exact Nat.min_eq_left hle

theorem minhash_finish_length_and_minima_witness :
    ((MinHash.new 1 0).applyUpdates [3]).finish.length = 1
    ∧ (0 : Nat) < 1
    ∧ nthD (((MinHash.new 1 0).applyUpdates [3]).finish) 0 0
        = (listMin ([3].map (fun x => mix_with_seed x (splitmixIter 0 1)))).getD (2 ^ 64 - 1) :=
  ⟨(minhash_finish_length_and_minima 1 0 [3]).1, by decide,
    (minhash_finish_length_and_minima 1 0 [3]).2 0 (by decide)⟩
